import Mathlib

/-!
Formal model of `docformatter.py`, a source-to-source tool that reformats
Python docstrings.  Source text and token strings are modelled as `List Char`;
the Python string methods used by the program (`strip`, `lstrip`, `rstrip`,
`split`, `rsplit`, `join`, `startswith`, `endswith`) and the two regular
expressions (`re.split` with pattern dot-whitespace, `re.sub` collapsing
whitespace runs that contain a newline) are given executable definitions below.
The tokenizer (`tokenize.generate_tokens`, Python standard library, not part of
this repository) is treated as external: token streams are explicit data,
checked against the source text by the `tokenizes` predicate.
-/

/-- Text is modelled as a list of characters. -/
abbrev Chars := List Char

/-- Conversion from a Lean string literal to the character-list model. -/
def toChars (s : String) : Chars := s.toList

/-- The ASCII whitespace characters recognised by Python's `str.strip` and by
the regex class backslash-s: space, tab, newline, carriage return, vertical
tab, form feed. -/
def pyIsSpace (c : Char) : Bool :=
  c = ' ' || c = '\t' || c = '\n' || c = '\r' || c = '\x0b' || c = '\x0c'

/-- Python `str.lstrip()`. -/
def lstrip (s : Chars) : Chars := s.dropWhile pyIsSpace

/-- Python `str.rstrip()`. -/
def rstrip (s : Chars) : Chars := (s.reverse.dropWhile pyIsSpace).reverse

/-- Python `str.strip()`. -/
def strip (s : Chars) : Chars := rstrip (lstrip s)

/-- Python `s.split(chr(10))`: split on every newline character. -/
def splitNl : Chars → List Chars
  | [] => [[]]
  | c :: t =>
    if c = '\n' then [] :: splitNl t
    else
      match splitNl t with
      | [] => [[c]]
      | l :: ls => (c :: l) :: ls

/-- Python `sep.join(lines)` with separator a single newline. -/
def joinNl : List Chars → Chars
  | [] => []
  | [l] => l
  | l :: ls => l ++ '\n' :: joinNl ls

/-- Python `s.split(pat, 1)` when `pat` occurs in `s`: the text before and
after the first occurrence of `pat`; `none` when `pat` does not occur. -/
def splitFirst (pat : Chars) : Chars → Option (Chars × Chars)
  | [] => if pat.isPrefixOf ([] : Chars) then some ([], []) else none
  | c :: t =>
    if pat.isPrefixOf (c :: t) then some ([], (c :: t).drop pat.length)
    else (splitFirst pat t).map fun p => (c :: p.1, p.2)

/-- Python `s.rsplit(pat, 1)` when `pat` occurs in `s`: the text before and
after the last occurrence of `pat`; `none` when `pat` does not occur. -/
def rsplitLast (pat s : Chars) : Option (Chars × Chars) :=
  (splitFirst pat.reverse s.reverse).map fun p => (p.2.reverse, p.1.reverse)

/-- Flushes a pending whitespace run (held in reverse order): a run containing
a newline collapses to one space, any other run is emitted unchanged. -/
def flushRun (run : Chars) : Chars :=
  if run.any (fun c => c = '\n') then [' '] else run.reverse

/-- Worker for `collapseNl`: `run` is the current whitespace run, reversed. -/
def collapseGo (run : Chars) : Chars → Chars
  | [] => flushRun run
  | c :: cs =>
    if pyIsSpace c then collapseGo (c :: run) cs
    else flushRun run ++ c :: collapseGo [] cs

/-- Python `re.sub` with pattern "whitespace-run containing a newline",
replacement a single space: each maximal whitespace run that contains a
newline collapses to one space; all other text is unchanged. -/
def collapseNl (s : Chars) : Chars := collapseGo [] s

/-- Python `re.split` with pattern dot-then-one-whitespace, maxsplit 1: splits
at the first occurrence of a period followed by a whitespace character, the
two matched characters being consumed; `none` when there is no match. -/
def reSplitDotWs : Chars → Option (Chars × Chars)
  | [] => none
  | [_] => none
  | c :: d :: t =>
    if c = '.' && pyIsSpace d then some ([], t)
    else (reSplitDotWs (d :: t)).map fun p => (c :: p.1, p.2)

/-- The position (counting from 0) of the first character pair "period then
one whitespace character" in `c`; used to characterise `reSplitDotWs`. -/
def dotWsIdx (c : Chars) : Option Nat :=
  (c.zip (c.drop 1)).findIdx? fun p => p.1 = '.' && pyIsSpace p.2

/-! ## The program: docformatter.py -/

/-- `starts_with_triple` (docformatter.py lines 45-48).  Note the second
disjunct tests for a prefix of FOUR single quotes, exactly as the source
line `string.strip().startswith("''''")` does. -/
def starts_with_triple (s : Chars) : Bool :=
  (toChars "\"\"\"").isPrefixOf (strip s) || (toChars "''''").isPrefixOf (strip s)

/-- Python runtime errors that the program can raise. -/
inductive PyErr where
  | assertionError
  | indexError
deriving DecidableEq, Repr

/-- The expression `docstring.split(triple, 1)[1].rsplit(triple, 1)[0].strip()`
from `strip_docstring`: Python raises IndexError on `[1]` when `split` finds
no occurrence; `rsplit` without an occurrence returns the whole string, whose
index `[0]` succeeds. -/
def stripCore (triple d : Chars) : Except PyErr Chars :=
  match splitFirst triple d with
  | none => .error .indexError
  | some (_, rest) =>
    .ok (strip (match rsplitLast triple rest with
      | none => rest
      | some (a, _) => a))

/-- `strip_docstring` (docformatter.py lines 96-103): delimiter is three
double quotes unless the left-stripped text starts with three single quotes,
in which case an assertion demands the right-stripped text also end with
three single quotes. -/
def strip_docstring (d : Chars) : Except PyErr Chars :=
  if (toChars "'''").isPrefixOf (lstrip d) then
    if (toChars "'''").isSuffixOf (rstrip d) then stripCore (toChars "'''") d
    else .error .assertionError
  else stripCore (toChars "\"\"\"") d

/-- `split_summary_and_description` (docformatter.py lines 83-93). -/
def split_summary_and_description (contents : Chars) : Chars × Chars :=
  let split := splitNl contents
  if 1 < split.length ∧ strip (split.getD 1 []) = [] then
    (split.headD [], joinNl (split.drop 2))
  else
    match reSplitDotWs contents with
    | some (a, b) => (strip a ++ toChars ".", strip b)
    | none => (strip contents, [])

/-- `indent_non_indented` (docformatter.py lines 75-80). -/
def indent_non_indented (line indentation : Chars) : Chars :=
  if lstrip line = line then indentation ++ line else line

/-- `normalize_summary` (docformatter.py lines 106-114). -/
def normalize_summary (summary : Chars) : Chars :=
  let t := collapseNl (strip summary)
  if (toChars ".").isSuffixOf t then t else t ++ toChars "."

/-- `format_docstring` (docformatter.py lines 51-72). -/
def format_docstring (indentation docstring : Chars) : Except PyErr Chars :=
  match strip_docstring docstring with
  | .error e => .error e
  | .ok contents =>
    if contents = [] then .ok []
    else
      let sd := split_summary_and_description contents
      if sd.2 = [] then
        .ok (toChars "\"\"\"" ++ contents ++ toChars "\"\"\"")
      else
        .ok (toChars "\"\"\"" ++ normalize_summary sd.1 ++ toChars "\n\n"
          ++ joinNl ((splitNl sd.2).map fun l => rstrip (indent_non_indented l indentation))
          ++ toChars "\n\n" ++ indentation ++ toChars "\"\"\"")

/-! ## Token streams and format_code

`format_code` (docformatter.py lines 10-42) consumes the token stream of
`tokenize.generate_tokens`, stdlib code outside this repository.  A token
stream is explicit data here; `tokenizes` checks it against the source text. -/

/-- Token kinds of Python's `tokenize` module that the examples use.
`format_code` itself only distinguishes `STRING` and `INDENT`. -/
inductive TokType where
  | NAME
  | OP
  | NUMBER
  | STRING
  | INDENT
  | DEDENT
  | NEWLINE
  | NL
  | COMMENT
  | ENDMARKER
deriving DecidableEq, Repr

/-- One token: kind, literal text, and start/end positions (row counting from
1, column from 0), as produced by `tokenize.generate_tokens`. -/
structure Token where
  ty : TokType
  str : Chars
  startRow : Nat
  startCol : Nat
  endRow : Nat
  endCol : Nat
deriving DecidableEq, Repr

/-- The loop body of `format_code` (docformatter.py lines 18-40), with the
loop state (previous token string and type, last row, last column) passed
explicitly.  `last_column` starts at -1 in the source, hence `Int`. -/
def fcGo : List Token → Chars → Option TokType → Nat → Int → Except PyErr Chars
  | [], _, _, _, _ => .ok []
  | t :: ts, prevStr, prevTy, lastRow, lastCol =>
    let lastCol2 : Int := if lastRow < t.startRow then 0 else lastCol
    let gap : Chars :=
      if lastCol2 < (t.startCol : Int) then
        List.replicate ((t.startCol : Int) - lastCol2).toNat ' '
      else []
    let emit : Except PyErr Chars :=
      if t.ty = TokType.STRING ∧ starts_with_triple t.str = true
          ∧ prevTy = some TokType.INDENT then
        format_docstring prevStr t.str
      else .ok t.str
    Except.bind emit fun e =>
      Except.bind (fcGo ts t.str (some t.ty) t.endRow t.endCol) fun rest =>
        .ok (gap ++ (e ++ rest))

/-- `format_code` (docformatter.py lines 10-42) on an explicit token stream:
initial state is empty previous string, no previous type, last row 0 and
last column -1. -/
def format_code (tokens : List Token) : Except PyErr Chars :=
  fcGo tokens [] none 0 (-1)

/-- No token of the stream is a docstring candidate: no `STRING` token that
`starts_with_triple` accepts immediately follows an `INDENT` token. -/
def noDocstringCandidate : Option TokType → List Token → Bool
  | _, [] => true
  | prevTy, t :: ts =>
    if t.ty = TokType.STRING ∧ starts_with_triple t.str = true
        ∧ prevTy = some TokType.INDENT then false
    else noDocstringCandidate (some t.ty) ts

/-- Modelled from the spec: section 4.1 describes the external tokenizer as
producing position-annotated tokens over the source text.  `rowStartAux
lines k` is the flat index of the first character of line `k` (counting lines
from 0) when the source splits into `lines` at newlines; rows past the end
map past the end of the text. -/
def rowStartAux : List Chars → Nat → Nat
  | _, 0 => 0
  | [], _ + 1 => 1
  | l :: ls, k + 1 => l.length + 1 + rowStartAux ls k

/-- Flat index of the first character of row `r` (rows counting from 1, as in
tokenizer positions). -/
def rowStart (src : Chars) (r : Nat) : Nat := rowStartAux (splitNl src) (r - 1)

/-- Modelled from the spec: section 4.1, the guarantees of the external
tokenizer.  Checks that a token stream is faithfully positioned over `src`:
tokens appear in order; each token's literal text is the slice of `src` at
its claimed position; the end position is consistent with the start position
and the text; the gap between consecutive tokens consists of characters
accepted by `gapOk`; a token on a later row than the previous token's end row
begins a row whose start coincides with the current flat position; and the
tokens cover `src` exactly.  `p` is the flat cursor, `prevRow` the previous
token's end row (0 initially). -/
def tcGo (gapOk : Char → Bool) (src : Chars) : List Token → Nat → Nat → Bool
  | [], p, _ => decide (p = src.length)
  | t :: ts, p, prevRow =>
    let q := rowStart src t.startRow + t.startCol
    let rowChk : Bool :=
      if prevRow < t.startRow then decide (p = rowStart src t.startRow)
      else decide (t.startRow = prevRow) && decide (0 < t.startRow)
    rowChk && decide (p ≤ q)
      && ((src.drop p).take (q - p)).all gapOk
      && decide ((src.drop q).take t.str.length = t.str)
      && decide (rowStart src t.endRow + t.endCol = q + t.str.length)
      && tcGo gapOk src ts (q + t.str.length) t.endRow

/-- A token stream faithfully tokenizes `src`, with inter-token gap characters
restricted by `gapOk`. -/
def tokenizes (gapOk : Char → Bool) (src : Chars) (tokens : List Token) : Bool :=
  tcGo gapOk src tokens 0 0

/-- Gap characters that are exactly one space. -/
def spaceOnly (c : Char) : Bool := c = ' '

/-- Gap characters that are whitespace other than a newline (spaces, tabs). -/
def nonNlWs (c : Char) : Bool := pyIsSpace c && !(c = '\n')

/-! ## Helper lemmas about the string model -/

theorem dropWhile_eq_nil_of_all {p : α → Bool} {l : List α} (h : ∀ a ∈ l, p a = true) :
    l.dropWhile p = [] := by
  induction l with
  | nil => rfl
  | cons c t ih =>
    rw [List.dropWhile_cons_of_pos (h c (by simp))]
    exact ih fun a ha => h a (by simp [ha])

theorem dropWhile_ne_nil_append {p : α → Bool} {u v : List α}
    (h : u.dropWhile p ≠ []) : (u ++ v).dropWhile p = u.dropWhile p ++ v := by
  rw [List.dropWhile_append]
  simp [List.isEmpty_iff, h]

theorem dropWhile_head_false {p : α → Bool} {l r : List α} {c : α}
    (h : l.dropWhile p = c :: r) : p c = false := by
  have h1 : (l.dropWhile p) ≠ [] := by simp [h]
  have h2 := List.head_dropWhile_not p l h1
  have h3 : (l.dropWhile p).head h1 = c := by simp [h]
  rwa [h3] at h2

theorem lstrip_cons_of_nonws {c : Char} (h : pyIsSpace c = false) (t : Chars) :
    lstrip (c :: t) = c :: t := by
  simp [lstrip, List.dropWhile_cons, h]

theorem lstrip_fix_head {c : Char} {t : Chars} (h : lstrip (c :: t) = c :: t) :
    pyIsSpace c = false := by
  by_contra hc
  rw [Bool.not_eq_false] at hc
  rw [lstrip, List.dropWhile_cons_of_pos hc] at h
  have hl := List.Sublist.length_le (List.dropWhile_sublist (p := pyIsSpace) (l := t))
  rw [h] at hl
  simp only [List.length_cons] at hl
  omega

theorem lstrip_cons_ws_ne {c : Char} {t : Chars} (h : pyIsSpace c = true) :
    lstrip (c :: t) ≠ c :: t := by
  intro he
  rw [lstrip_fix_head he] at h
  exact Bool.false_ne_true h

theorem lstrip_idem (s : Chars) : lstrip (lstrip s) = lstrip s := by
  induction s with
  | nil => rfl
  | cons c t ih =>
    by_cases h : pyIsSpace c = true
    · simp only [lstrip] at ih ⊢
      rw [List.dropWhile_cons_of_pos h]
      exact ih
    · rw [Bool.not_eq_true] at h
      rw [lstrip_cons_of_nonws h, lstrip_cons_of_nonws h]

theorem rstrip_idem (s : Chars) : rstrip (rstrip s) = rstrip s := by
  simp only [rstrip, List.reverse_reverse]
  rw [show (s.reverse.dropWhile pyIsSpace).dropWhile pyIsSpace
        = s.reverse.dropWhile pyIsSpace from lstrip_idem s.reverse]

theorem rstrip_pre (s : Chars) : rstrip s <+: s := by
  have h := List.dropWhile_suffix (l := s.reverse) pyIsSpace
  have h2 := List.reverse_prefix.mpr h
  rwa [List.reverse_reverse] at h2

theorem rstrip_append_nonws {x : Char} (h : pyIsSpace x = false) (u : Chars) :
    rstrip (u ++ [x]) = u ++ [x] := by
  rw [rstrip, List.reverse_append]
  simp only [List.reverse_cons, List.reverse_nil, List.nil_append, List.singleton_append]
  rw [List.dropWhile_cons_of_neg (by simp [h]), List.reverse_cons, List.reverse_reverse]

theorem rstrip_eq_nil_of_ws {w : Chars} (h : ∀ c ∈ w, pyIsSpace c = true) :
    rstrip w = [] := by
  rw [rstrip, dropWhile_eq_nil_of_all (fun a ha => h a (List.mem_reverse.mp ha))]
  rfl

theorem rstrip_append_ws {w : Chars} (h : ∀ c ∈ w, pyIsSpace c = true) (x : Chars) :
    rstrip (x ++ w) = rstrip x := by
  rw [rstrip, rstrip, List.reverse_append,
    List.dropWhile_append_of_pos (fun a ha => h a (List.mem_reverse.mp ha))]

theorem rstrip_append_right {b : Chars} (h : rstrip b ≠ []) (a : Chars) :
    rstrip (a ++ b) = a ++ rstrip b := by
  have hb : b.reverse.dropWhile pyIsSpace ≠ [] := by
    intro he
    apply h
    rw [rstrip, he]
    rfl
  rw [rstrip, List.reverse_append, dropWhile_ne_nil_append hb, List.reverse_append,
    List.reverse_reverse]
  rfl

theorem rstrip_ne_nil_of_mem {c : Char} {l : Chars} (hc : pyIsSpace c = false)
    (hm : c ∈ l) : rstrip l ≠ [] := by
  intro he
  rw [rstrip, List.reverse_eq_nil_iff] at he
  have : ∀ a ∈ l.reverse, pyIsSpace a = true := by
    intro a ha
    by_contra hp
    rw [Bool.not_eq_true] at hp
    have := List.takeWhile_append_dropWhile pyIsSpace l.reverse
    rw [he, List.append_nil] at this
    rw [← this] at ha
    have := List.mem_takeWhile_imp ha
    rw [hp] at this
    exact Bool.false_ne_true this
  have := this c (List.mem_reverse.mpr hm)
  rw [hc] at this
  exact Bool.false_ne_true this

theorem rstrip_out {z : Chars} (h : rstrip z ≠ []) :
    ∃ u x, rstrip z = u ++ [x] ∧ pyIsSpace x = false := by
  rcases hd : z.reverse.dropWhile pyIsSpace with _ | ⟨d, w⟩
  · rw [rstrip, hd] at h
    exact absurd rfl h
  · exact ⟨w.reverse, d, by rw [rstrip, hd, List.reverse_cons], dropWhile_head_false hd⟩

theorem rstrip_cons_shape (c : Char) (t : Chars) :
    rstrip (c :: t) = [] ∨ ∃ r, rstrip (c :: t) = c :: r := by
  rcases rstrip_pre (c :: t) with ⟨u, hu⟩
  rcases he : rstrip (c :: t) with _ | ⟨d, w⟩
  · exact Or.inl rfl
  · rw [he] at hu
    refine Or.inr ⟨w, ?_⟩
    rw [List.cons_append] at hu
    rw [(List.cons.injEq .. ).mp hu |>.1]

theorem lstrip_rstrip_fix {z : Chars} (h : lstrip z = z) :
    lstrip (rstrip z) = rstrip z := by
  cases z with
  | nil => rfl
  | cons c t =>
    have hc := lstrip_fix_head h
    rcases rstrip_cons_shape c t with he | ⟨r, he⟩
    · rw [he]
      rfl
    · rw [he, lstrip_cons_of_nonws hc]

theorem strip_idem (s : Chars) : strip (strip s) = strip s := by
  rw [strip, strip, lstrip_rstrip_fix (lstrip_idem s), rstrip_idem]

theorem strip_lstrip_fix (s : Chars) : lstrip (strip s) = strip s :=
  lstrip_rstrip_fix (lstrip_idem s)

theorem strip_rstrip_fix (s : Chars) : rstrip (strip s) = strip s := by
  rw [strip, rstrip_idem]

theorem strip_out {y : Chars} (h : strip y ≠ []) :
    ∃ u x, strip y = u ++ [x] ∧ pyIsSpace x = false := by
  rw [strip] at h ⊢
  exact rstrip_out h

theorem strip_head {y : Chars} (h : strip y ≠ []) :
    ∃ c t, strip y = c :: t ∧ pyIsSpace c = false := by
  rcases he : strip y with _ | ⟨c, t⟩
  · exact absurd he h
  · refine ⟨c, t, rfl, ?_⟩
    have := strip_lstrip_fix y
    rw [he] at this
    exact lstrip_fix_head this

theorem strip_append_tail_ws {S w : Chars} (hS : lstrip S = S)
    (hlast : rstrip S = S) (hS0 : S ≠ []) (hw : ∀ c ∈ w, pyIsSpace c = true) :
    strip (S ++ w) = S := by
  rw [strip]
  have h1 : lstrip (S ++ w) = S ++ w := by
    cases S with
    | nil => exact absurd rfl hS0
    | cons c t => rw [List.cons_append, lstrip_cons_of_nonws (lstrip_fix_head hS)]
  rw [h1, rstrip_append_ws hw, hlast]

theorem splitNl_ne_nil (s : Chars) : splitNl s ≠ [] := by
  cases s with
  | nil => simp [splitNl]
  | cons c t =>
    rw [splitNl]
    by_cases h : c = '\n'
    · simp [h]
    · simp only [h, if_false]
      rcases splitNl t with _ | ⟨l, ls⟩ <;> simp

theorem splitNl_nl (t : Chars) : splitNl ('\n' :: t) = [] :: splitNl t := by
  rw [splitNl]
  simp

theorem joinNl_cons_of_ne {ls : List Chars} (h : ls ≠ []) (l : Chars) :
    joinNl (l :: ls) = l ++ '\n' :: joinNl ls := by
  cases ls with
  | nil => exact absurd rfl h
  | cons a as => rfl

theorem joinNl_splitNl (s : Chars) : joinNl (splitNl s) = s := by
  induction s with
  | nil => rfl
  | cons c t ih =>
    by_cases h : c = '\n'
    · subst h
      rw [splitNl_nl, joinNl_cons_of_ne (splitNl_ne_nil t), List.nil_append, ih]
    · rw [splitNl]
      simp only [h, if_false]
      rcases hs : splitNl t with _ | ⟨l, ls⟩
      · exact absurd hs (splitNl_ne_nil t)
      · rw [hs] at ih
        cases ls with
        | nil =>
          rw [joinNl] at ih ⊢
          rw [ih]
        | cons b bs =>
          rw [joinNl_cons_of_ne (by simp)] at ih ⊢
          rw [List.cons_append, ih]

theorem splitNl_noNl {l : Chars} (h : '\n' ∉ l) : splitNl l = [l] := by
  induction l with
  | nil => rfl
  | cons c t ih =>
    have hc : ¬ c = '\n' := fun he => h (he ▸ List.mem_cons_self c t)
    rw [splitNl]
    simp only [hc, if_false]
    rw [ih fun hm => h (List.mem_cons_of_mem c hm)]

theorem splitNl_append_noNl {a : Chars} (h : '\n' ∉ a) (r : Chars) :
    splitNl (a ++ '\n' :: r) = a :: splitNl r := by
  induction a with
  | nil => exact splitNl_nl r
  | cons c t ih =>
    have hc : ¬ c = '\n' := fun he => h (he ▸ List.mem_cons_self c t)
    rw [List.cons_append, splitNl]
    simp only [hc, if_false]
    rw [ih fun hm => h (List.mem_cons_of_mem c hm)]

theorem mem_splitNl_noNl {s l : Chars} (hm : l ∈ splitNl s) : '\n' ∉ l := by
  induction s generalizing l with
  | nil =>
    rw [splitNl] at hm
    simp at hm
    simp [hm]
  | cons c t ih =>
    by_cases h : c = '\n'
    · subst h
      rw [splitNl_nl] at hm
      rcases List.mem_cons.mp hm with he | hm2
      · simp [he]
      · exact ih hm2
    · rw [splitNl] at hm
      simp only [h, if_false] at hm
      rcases hs : splitNl t with _ | ⟨b, bs⟩
      · exact absurd hs (splitNl_ne_nil t)
      · rw [hs] at hm
        rcases List.mem_cons.mp hm with he | hm2
        · subst he
          intro hmem
          rcases List.mem_cons.mp hmem with he2 | hm3
          · exact h he2.symm
          · exact ih (hs ▸ List.mem_cons_self b bs) hm3
        · exact ih (hs ▸ List.mem_cons_of_mem b hm2)

theorem splitNl_joinNl {L : List Chars} (hL : L ≠ [])
    (h : ∀ l ∈ L, '\n' ∉ l) : splitNl (joinNl L) = L := by
  induction L with
  | nil => exact absurd rfl hL
  | cons l ls ih =>
    cases ls with
    | nil => exact splitNl_noNl (h l (List.mem_cons_self l []))
    | cons b bs =>
      rw [joinNl_cons_of_ne (by simp),
        splitNl_append_noNl (h l (List.mem_cons_self l (b :: bs))),
        ih (by simp) fun x hx => h x (List.mem_cons_of_mem l hx)]

theorem flushRun_no_nl (run : Chars) : '\n' ∉ flushRun run := by
  rw [flushRun]
  by_cases h : run.any (fun c => c = '\n') = true
  · simp [h]
  · rw [Bool.not_eq_true] at h
    simp only [h, Bool.false_eq_true, if_false, List.mem_reverse]
    intro hm
    have h2 := List.any_eq_false.mp h '\n' hm
    simp at h2

theorem collapseGo_no_nl (s : Chars) : ∀ run, '\n' ∉ collapseGo run s := by
  induction s with
  | nil => exact fun run => flushRun_no_nl run
  | cons c cs ih =>
    intro run
    rw [collapseGo]
    by_cases h : pyIsSpace c = true
    · simp only [h, if_true]
      exact ih (c :: run)
    · simp only [h, if_false]
      intro hm
      rcases List.mem_append.mp hm with h1 | h2
      · exact flushRun_no_nl run h1
      · rcases List.mem_cons.mp h2 with he | h3
        · rw [← he] at h
          simp [pyIsSpace] at h
        · exact ih [] h3

theorem collapseNl_no_nl (s : Chars) : '\n' ∉ collapseNl s := collapseGo_no_nl s []

theorem flushRun_eq_of_no_nl {run : Chars} (h : '\n' ∉ run) :
    flushRun run = run.reverse := by
  rw [flushRun]
  have : run.any (fun c => c = '\n') = false := by
    rw [List.any_eq_false]
    intro x hx
    simp only [decide_eq_true_eq]
    intro he
    exact h (he ▸ hx)
  simp [this]

theorem collapseGo_eq_of_no_nl {s : Chars} (hs : '\n' ∉ s) :
    ∀ run, '\n' ∉ run → collapseGo run s = run.reverse ++ s := by
  induction s with
  | nil =>
    intro run hr
    rw [collapseGo, flushRun_eq_of_no_nl hr, List.append_nil]
  | cons c cs ih =>
    intro run hr
    have hc : c ≠ '\n' := fun he => hs (he ▸ List.mem_cons_self c cs)
    have hcs : '\n' ∉ cs := fun hm => hs (List.mem_cons_of_mem c hm)
    rw [collapseGo]
    by_cases h : pyIsSpace c = true
    · simp only [h, if_true]
      rw [ih hcs (c :: run) (by
        intro hm
        rcases List.mem_cons.mp hm with he | h2
        · exact hc he.symm
        · exact hr h2)]
      simp
    · simp only [h, if_false]
      rw [flushRun_eq_of_no_nl hr, ih hcs [] (by simp)]
      simp

theorem collapseNl_eq_of_no_nl {s : Chars} (hs : '\n' ∉ s) : collapseNl s = s := by
  rw [collapseNl, collapseGo_eq_of_no_nl hs [] (by simp)]
  rfl

theorem collapseNl_cons_nonws {c : Char} (h : pyIsSpace c = false) (cs : Chars) :
    collapseNl (c :: cs) = c :: collapseNl cs := by
  rw [collapseNl, collapseGo]
  simp [h, flushRun, collapseNl]

theorem ns_ends_dot (s : Chars) : ∃ u, normalize_summary s = u ++ ['.'] := by
  rw [normalize_summary]
  by_cases h : (toChars ".").isSuffixOf (collapseNl (strip s)) = true
  · simp only [h, if_true]
    rcases List.isSuffixOf_iff_suffix.mp h with ⟨u, hu⟩
    exact ⟨u, hu.symm⟩
  · simp only [h, if_false]
    exact ⟨collapseNl (strip s), rfl⟩

theorem ns_no_nl (s : Chars) : '\n' ∉ normalize_summary s := by
  rw [normalize_summary]
  by_cases h : (toChars ".").isSuffixOf (collapseNl (strip s)) = true
  · simp only [h, if_true]
    exact collapseNl_no_nl (strip s)
  · simp only [h, if_false]
    intro hm
    rcases List.mem_append.mp hm with h1 | h2
    · exact collapseNl_no_nl (strip s) h1
    · simp [toChars] at h2

theorem ns_head_nonws (s : Chars) :
    ∃ c t, normalize_summary s = c :: t ∧ pyIsSpace c = false := by
  rcases hs : strip s with _ | ⟨c, t0⟩
  · refine ⟨'.', [], ?_, by decide⟩
    rw [normalize_summary, hs]
    decide
  · have hc : pyIsSpace c = false := by
      rcases strip_head (y := s) (by rw [hs]; simp) with ⟨c2, t2, he, hws⟩
      rw [hs] at he
      injection he with h1 h2
      rw [h1]
      exact hws
    rw [normalize_summary, hs, collapseNl_cons_nonws hc]
    by_cases h : (toChars ".").isSuffixOf (c :: collapseNl t0) = true
    · simp only [h, if_true]
      exact ⟨c, collapseNl t0, rfl, hc⟩
    · simp only [h, if_false]
      exact ⟨c, collapseNl t0 ++ toChars ".", rfl, hc⟩

theorem normalize_summary_fix (s : Chars) :
    normalize_summary (normalize_summary s) = normalize_summary s := by
  rcases ns_ends_dot s with ⟨u, hu⟩
  rcases ns_head_nonws s with ⟨c, t, hct, hc⟩
  have hstrip : strip (normalize_summary s) = normalize_summary s := by
    rw [strip]
    have h1 : lstrip (normalize_summary s) = normalize_summary s := by
      rw [hct]
      exact lstrip_cons_of_nonws hc t
    rw [h1, hu]
    exact rstrip_append_nonws (by decide) u
  have hcoll : collapseNl (normalize_summary s) = normalize_summary s :=
    collapseNl_eq_of_no_nl (ns_no_nl s)
  have hsuf : (toChars ".").isSuffixOf (normalize_summary s) = true := by
    rw [List.isSuffixOf_iff_suffix, hu]
    exact List.suffix_append u ['.']
  conv_lhs => rw [normalize_summary]
  rw [hstrip, hcoll]
  simp only [hsuf, if_true]

theorem q3_def : toChars "\"\"\"" = '"' :: '"' :: '"' :: [] := rfl

theorem tq_def : toChars "'''" = '\'' :: '\'' :: '\'' :: [] := rfl

theorem splitFirst_pre (c : Char) (pat x : Chars) :
    splitFirst (c :: pat) ((c :: pat) ++ x) = some ([], x) := by
  have hp : (c :: pat).isPrefixOf ((c :: pat) ++ x) = true :=
    List.isPrefixOf_iff_prefix.mpr (List.prefix_append _ _)
  rw [List.cons_append] at hp ⊢
  rw [splitFirst, if_pos hp, ← List.cons_append, List.drop_left]

theorem rsplitLast_suf {pat : Chars} {c : Char} {p2 : Chars} (hc : pat = c :: p2)
    (hpal : pat.reverse = pat) (y : Chars) :
    rsplitLast pat (y ++ pat) = some (y, []) := by
  rw [rsplitLast, List.reverse_append, hpal, hc, splitFirst_pre, Option.map_some']
  simp

theorem stripCore_of_eqs {pat d a rest b z : Chars}
    (h1 : splitFirst pat d = some (a, rest))
    (h2 : rsplitLast pat rest = some (b, z)) :
    stripCore pat d = .ok (strip b) := by
  rw [stripCore, h1]
  show Except.ok (strip (match rsplitLast pat rest with
      | none => rest
      | some (a, _) => a)) = Except.ok (strip b)
  rw [h2]

theorem stripCore_wrap {pat : Chars} {c : Char} {p2 : Chars} (hc : pat = c :: p2)
    (hpal : pat.reverse = pat) (x : Chars) :
    stripCore pat (pat ++ x ++ pat) = .ok (strip x) := by
  subst hc
  have h1 : splitFirst (c :: p2) (c :: p2 ++ x ++ c :: p2) = some ([], x ++ c :: p2) := by
    rw [List.append_assoc]
    exact splitFirst_pre c p2 (x ++ c :: p2)
  exact stripCore_of_eqs h1 (rsplitLast_suf rfl hpal x)

theorem stripCore_ne_assert (pat d : Chars) :
    stripCore pat d ≠ .error .assertionError := by
  rw [stripCore]
  rcases h : splitFirst pat d with _ | ⟨a, rest⟩
  · intro hcon
    injection hcon with h2
    exact PyErr.noConfusion h2
  · intro hcon
    exact Except.noConfusion hcon

theorem stripCore_stripped {pat d c : Chars} (h : stripCore pat d = .ok c) :
    strip c = c := by
  rw [stripCore] at h
  rcases hsp : splitFirst pat d with _ | ⟨a, rest⟩
  · rw [hsp] at h
    exact Except.noConfusion h
  · rw [hsp] at h
    injection h with h2
    rw [← h2]
    exact strip_idem _

theorem strip_docstring_stripped {d c : Chars} (h : strip_docstring d = .ok c) :
    strip c = c := by
  rw [strip_docstring] at h
  by_cases h1 : (toChars "'''").isPrefixOf (lstrip d) = true
  · rw [if_pos h1] at h
    by_cases h2 : (toChars "'''").isSuffixOf (rstrip d) = true
    · rw [if_pos h2] at h
      exact stripCore_stripped h
    · rw [if_neg h2] at h
      simp at h
  · rw [if_neg h1] at h
    exact stripCore_stripped h

theorem beq_sq_dq : (('\'' : Char) == '"') = false := by decide

theorem tq_not_prefix_dq (rest : Chars) :
    (toChars "'''").isPrefixOf ('"' :: rest) = false := by
  rw [tq_def, List.isPrefixOf, beq_sq_dq, Bool.false_and]

theorem strip_docstring_q3_wrap (x : Chars) :
    strip_docstring (toChars "\"\"\"" ++ x ++ toChars "\"\"\"") = .ok (strip x) := by
  have hshape : toChars "\"\"\"" ++ x ++ toChars "\"\"\""
      = '"' :: ('"' :: '"' :: [] ++ x ++ toChars "\"\"\"") := by
    rw [q3_def]
    simp
  rw [strip_docstring]
  have h1 : lstrip (toChars "\"\"\"" ++ x ++ toChars "\"\"\"")
      = toChars "\"\"\"" ++ x ++ toChars "\"\"\"" := by
    rw [hshape]
    exact lstrip_cons_of_nonws (by decide) _
  rw [h1]
  rw [show (toChars "\"\"\"" ++ x ++ toChars "\"\"\"")
      = '"' :: ('"' :: '"' :: [] ++ x ++ toChars "\"\"\"") from hshape,
    tq_not_prefix_dq]
  simp only [Bool.false_eq_true, if_false]
  rw [← hshape]
  exact stripCore_wrap q3_def rfl x

theorem strip_docstring_tq_wrap (x : Chars) :
    strip_docstring (toChars "'''" ++ x ++ toChars "'''") = .ok (strip x) := by
  have hshape : toChars "'''" ++ x ++ toChars "'''"
      = (toChars "'''" ++ x ++ ['\'', '\'']) ++ ['\''] := by
    rw [tq_def]
    simp
  have hln : lstrip (toChars "'''" ++ x ++ toChars "'''")
      = toChars "'''" ++ x ++ toChars "'''" := by
    rw [show toChars "'''" ++ x ++ toChars "'''"
        = '\'' :: ('\'' :: '\'' :: [] ++ x ++ toChars "'''") from by rw [tq_def]; simp]
    exact lstrip_cons_of_nonws (by decide) _
  have hrs : rstrip (toChars "'''" ++ x ++ toChars "'''")
      = toChars "'''" ++ x ++ toChars "'''" := by
    conv_lhs => rw [hshape]
    rw [rstrip_append_nonws (by decide), ← hshape]
  have hpre : (toChars "'''").isPrefixOf (toChars "'''" ++ x ++ toChars "'''") = true := by
    rw [List.isPrefixOf_iff_prefix, List.append_assoc]
    exact List.prefix_append _ _
  have hsuf : (toChars "'''").isSuffixOf
      (rstrip (toChars "'''" ++ x ++ toChars "'''")) = true := by
    rw [hrs, List.isSuffixOf_iff_suffix]
    exact List.suffix_append _ _
  rw [strip_docstring, hln, if_pos hpre, if_pos hsuf]
  exact stripCore_wrap tq_def rfl x

theorem except_bind_ok {ε α β : Type} (a : α) (f : α → Except ε β) :
    Except.bind (.ok a) f = f a := rfl

theorem ite_gap (lc : Int) (sc : Nat) (h : lc ≤ (sc : Int)) :
    (if lc < (sc : Int) then List.replicate ((sc : Int) - lc).toNat ' ' else [])
      = List.replicate ((sc : Int) - lc).toNat ' ' := by
  by_cases hlt : lc < (sc : Int)
  · rw [if_pos hlt]
  · rw [if_neg hlt]
    have h0 : ((sc : Int) - lc).toNat = 0 := by omega
    rw [h0]
    rfl

theorem drop_eq_gap_append {src : Chars} {p q : Nat} (hpq : p ≤ q)
    (hq : q ≤ src.length)
    (hgap : ((src.drop p).take (q - p)).all spaceOnly = true) :
    src.drop p = List.replicate (q - p) ' ' ++ src.drop q := by
  have hlen : ((src.drop p).take (q - p)).length = q - p := by
    rw [List.length_take, List.length_drop]
    omega
  have hrep : (src.drop p).take (q - p) = List.replicate (q - p) ' ' := by
    rw [List.eq_replicate_iff]
    refine ⟨hlen, ?_⟩
    intro b hb
    have := List.all_eq_true.mp hgap b hb
    rw [spaceOnly] at this
    exact of_decide_eq_true this
  have hsplit := List.take_append_drop (q - p) (src.drop p)
  rw [hrep] at hsplit
  rw [← hsplit, List.drop_drop]
  have : p + (q - p) = q := by omega
  rw [this]

theorem drop_eq_str_append {src s : Chars} {q : Nat}
    (hslice : (src.drop q).take s.length = s) :
    src.drop q = s ++ src.drop (q + s.length) := by
  have hsplit := List.take_append_drop s.length (src.drop q)
  rw [hslice] at hsplit
  rw [← hsplit, List.drop_drop]

/-- Core reconstruction lemma for `format_code`: on a token stream that is
faithfully positioned over `src` with all inter-token gaps consisting of
spaces only, and containing no docstring candidate, the loop reproduces the
remaining source text exactly. -/
theorem fc_reconstruct (src : Chars) (toks : List Token) :
    ∀ (p prevRow : Nat) (prevStr : Chars) (prevTy : Option TokType) (lastCol : Int),
    tcGo spaceOnly src toks p prevRow = true →
    noDocstringCandidate prevTy toks = true →
    ((lastCol = -1 ∧ prevRow = 0 ∧ p = 0) ∨
      (∃ n : Nat, lastCol = (n : Int) ∧ p = rowStart src prevRow + n)) →
    p ≤ src.length ∧ fcGo toks prevStr prevTy prevRow lastCol = .ok (src.drop p) := by
  induction toks with
  | nil =>
    intro p prevRow prevStr prevTy lastCol htc hnc hinv
    rw [tcGo] at htc
    have hp := of_decide_eq_true htc
    refine ⟨by omega, ?_⟩
    rw [fcGo, hp, List.drop_length]
  | cons t ts ih =>
    intro p prevRow prevStr prevTy lastCol htc hnc hinv
    simp only [tcGo, Bool.and_eq_true] at htc
    obtain ⟨⟨⟨⟨⟨hrow, hpq⟩, hgap⟩, hslice⟩, hend⟩, htcrest⟩ := htc
    replace hpq := of_decide_eq_true hpq
    replace hslice := of_decide_eq_true hslice
    replace hend := of_decide_eq_true hend
    rw [noDocstringCandidate] at hnc
    by_cases hcand : (t.ty = TokType.STRING ∧ starts_with_triple t.str = true
        ∧ prevTy = some TokType.INDENT)
    · rw [if_pos hcand] at hnc
      exact absurd hnc (by simp)
    rw [if_neg hcand] at hnc
    have hnext := ih (rowStart src t.startRow + t.startCol + t.str.length) t.endRow
      t.str (some t.ty) (t.endCol : Int) htcrest hnc
      (Or.inr ⟨t.endCol, rfl, hend.symm⟩)
    have hqlen : rowStart src t.startRow + t.startCol ≤ src.length := by
      have := hnext.1
      omega
    refine ⟨by omega, ?_⟩
    simp only [fcGo]
    rw [if_neg hcand, except_bind_ok, hnext.2, except_bind_ok]
    have hdq := drop_eq_str_append hslice
    by_cases hlt : prevRow < t.startRow
    · rw [if_pos hlt] at hrow
      replace hrow := of_decide_eq_true hrow
      rw [if_pos hlt, ite_gap 0 t.startCol (by omega)]
      have hgapd := drop_eq_gap_append hpq hqlen hgap
      rw [hdq] at hgapd
      rw [hgapd]
      have hcount : ((t.startCol : Int) - 0).toNat
          = rowStart src t.startRow + t.startCol - p := by omega
      rw [hcount]
    · rw [if_neg hlt] at hrow
      rw [Bool.and_eq_true] at hrow
      have hsr := of_decide_eq_true hrow.1
      have hpos := of_decide_eq_true hrow.2
      rcases hinv with ⟨hl1, hl2, hl3⟩ | ⟨n, hn1, hn2⟩
      · omega
      rw [if_neg hlt, hn1, ite_gap (n : Int) t.startCol (by
        rw [hsr] at hpq
        rw [hn2] at hpq
        omega)]
      have hgapd := drop_eq_gap_append hpq hqlen hgap
      rw [hdq] at hgapd
      rw [hgapd]
      have hcount : ((t.startCol : Int) - (n : Int)).toNat
          = rowStart src t.startRow + t.startCol - p := by
        rw [hsr] at hpq ⊢
        omega
      rw [hcount]

/-- `format_code` reproduces the source exactly when the token stream is
faithfully positioned with space-only gaps and contains no docstring
candidate. -/
theorem format_code_id {src : Chars} {toks : List Token}
    (htok : tokenizes spaceOnly src toks = true)
    (hnc : noDocstringCandidate none toks = true) :
    format_code toks = .ok src := by
  have h := fc_reconstruct src toks 0 0 [] none (-1) htok hnc
    (Or.inl ⟨rfl, rfl, rfl⟩)
  rw [format_code, h.2, List.drop_zero]

/-! ## Concrete token streams (transcribed from CPython tokenize output) -/

/-- Source text with a tab between tokens. -/
def srcTab : Chars := toChars "x\t= 1\n"

/-- Token stream of `srcTab`, as produced by `tokenize.generate_tokens`. -/
def toksTab : List Token := [
  ⟨.NAME, toChars "x", 1, 0, 1, 1⟩,
  ⟨.OP, toChars "=", 1, 2, 1, 3⟩,
  ⟨.NUMBER, toChars "1", 1, 4, 1, 5⟩,
  ⟨.NEWLINE, toChars "\n", 1, 5, 1, 6⟩,
  ⟨.ENDMARKER, [], 2, 0, 2, 0⟩]

/-- The same statement with single spaces between tokens. -/
def srcSp : Chars := toChars "x = 1\n"

/-- Token stream of `srcSp`. -/
def toksSp : List Token := [
  ⟨.NAME, toChars "x", 1, 0, 1, 1⟩,
  ⟨.OP, toChars "=", 1, 2, 1, 3⟩,
  ⟨.NUMBER, toChars "1", 1, 4, 1, 5⟩,
  ⟨.NEWLINE, toChars "\n", 1, 5, 1, 6⟩,
  ⟨.ENDMARKER, [], 2, 0, 2, 0⟩]

/-- A function with a triple-single-quoted docstring. -/
def srcQuote : Chars := toChars "def f():\n    '''Hello. World.'''\n"

/-- Token stream of `srcQuote`: the docstring token follows the INDENT. -/
def toksQuote : List Token := [
  ⟨.NAME, toChars "def", 1, 0, 1, 3⟩,
  ⟨.NAME, toChars "f", 1, 4, 1, 5⟩,
  ⟨.OP, toChars "(", 1, 5, 1, 6⟩,
  ⟨.OP, toChars ")", 1, 6, 1, 7⟩,
  ⟨.OP, toChars ":", 1, 7, 1, 8⟩,
  ⟨.NEWLINE, toChars "\n", 1, 8, 1, 9⟩,
  ⟨.INDENT, toChars "    ", 2, 0, 2, 4⟩,
  ⟨.STRING, toChars "'''Hello. World.'''", 2, 4, 2, 23⟩,
  ⟨.NEWLINE, toChars "\n", 2, 23, 2, 24⟩,
  ⟨.DEDENT, [], 3, 0, 3, 0⟩,
  ⟨.ENDMARKER, [], 3, 0, 3, 0⟩]

/-- A function with an empty docstring followed by a second triple-quoted
string on the next line. -/
def srcIdem : Chars := toChars "def f():\n    \"\"\" \"\"\"\n    \"\"\"Second. More.\"\"\"\n"

/-- Token stream of `srcIdem`: the second string follows a NEWLINE, not an
INDENT, so only the first (empty) docstring is a candidate. -/
def toksIdem1 : List Token := [
  ⟨.NAME, toChars "def", 1, 0, 1, 3⟩,
  ⟨.NAME, toChars "f", 1, 4, 1, 5⟩,
  ⟨.OP, toChars "(", 1, 5, 1, 6⟩,
  ⟨.OP, toChars ")", 1, 6, 1, 7⟩,
  ⟨.OP, toChars ":", 1, 7, 1, 8⟩,
  ⟨.NEWLINE, toChars "\n", 1, 8, 1, 9⟩,
  ⟨.INDENT, toChars "    ", 2, 0, 2, 4⟩,
  ⟨.STRING, toChars "\"\"\" \"\"\"", 2, 4, 2, 11⟩,
  ⟨.NEWLINE, toChars "\n", 2, 11, 2, 12⟩,
  ⟨.STRING, toChars "\"\"\"Second. More.\"\"\"", 3, 4, 3, 23⟩,
  ⟨.NEWLINE, toChars "\n", 3, 23, 3, 24⟩,
  ⟨.DEDENT, [], 4, 0, 4, 0⟩,
  ⟨.ENDMARKER, [], 4, 0, 4, 0⟩]

/-- First-pass output on `srcIdem`: the empty docstring has been deleted,
leaving a whitespace-only second line. -/
def outIdem1 : Chars := toChars "def f():\n    \n    \"\"\"Second. More.\"\"\"\n"

/-- Token stream of `outIdem1`: line 2 is now whitespace-only (an NL line,
not affecting the indent stack), so the INDENT token moves to line 3 and the
remaining triple-quoted string now immediately follows it. -/
def toksIdem2 : List Token := [
  ⟨.NAME, toChars "def", 1, 0, 1, 3⟩,
  ⟨.NAME, toChars "f", 1, 4, 1, 5⟩,
  ⟨.OP, toChars "(", 1, 5, 1, 6⟩,
  ⟨.OP, toChars ")", 1, 6, 1, 7⟩,
  ⟨.OP, toChars ":", 1, 7, 1, 8⟩,
  ⟨.NEWLINE, toChars "\n", 1, 8, 1, 9⟩,
  ⟨.NL, toChars "\n", 2, 4, 2, 5⟩,
  ⟨.INDENT, toChars "    ", 3, 0, 3, 4⟩,
  ⟨.STRING, toChars "\"\"\"Second. More.\"\"\"", 3, 4, 3, 23⟩,
  ⟨.NEWLINE, toChars "\n", 3, 23, 3, 24⟩,
  ⟨.DEDENT, [], 4, 0, 4, 0⟩,
  ⟨.ENDMARKER, [], 4, 0, 4, 0⟩]

/-- Second-pass output: the surviving string has been reformatted. -/
def outIdem2 : Chars :=
  toChars "def f():\n    \n    \"\"\"Second.\n\n    More.\n\n    \"\"\"\n"

/-! ## Claim theorems -/

/-- Claim C1 (code bug): the claim says every string token that, after
trimming, begins with three double quotes or three single quotes and follows
an INDENT token is replaced by `format_docstring`.  The code instead tests
`startswith("''''")` - four single quotes - so a docstring token beginning
with exactly three single quotes is NOT classified: on `srcQuote`,
`format_code` emits the token raw and returns the source unchanged, although
the token strips to a three-single-quote prefix and `format_docstring` would
have rewritten it. -/
theorem claim_C1_quote_detection :
    tokenizes spaceOnly srcQuote toksQuote = true
    ∧ format_code toksQuote = .ok srcQuote
    ∧ starts_with_triple (toChars "'''Hello. World.'''") = false
    ∧ (toChars "'''").isPrefixOf (strip (toChars "'''Hello. World.'''")) = true
    ∧ format_docstring (toChars "    ") (toChars "'''Hello. World.'''")
        = .ok (toChars "\"\"\"Hello.\n\n    World.\n\n    \"\"\"")
    ∧ toChars "\"\"\"Hello.\n\n    World.\n\n    \"\"\"" ≠ toChars "'''Hello. World.'''" :=
  ⟨by rfl, by rfl, by rfl, by rfl, by rfl, by decide⟩

/-- Claim C2 counterexample: a source text with a tab between tokens (and no
triple-quoted string at all) is NOT returned byte for byte: the tab gap is
re-emitted as a single space.  The token stream is faithfully positioned over
the source (gaps are non-newline whitespace) and contains no docstring
candidate, yet the output differs from the input. -/
theorem claim_C2_cex :
    tokenizes nonNlWs srcTab toksTab = true
    ∧ noDocstringCandidate none toksTab = true
    ∧ format_code toksTab = .ok (toChars "x = 1\n")
    ∧ toChars "x = 1\n" ≠ srcTab :=
  ⟨by rfl, by rfl, by rfl, by decide⟩

/-- Claim C2 (amended): for every source text and faithfully positioned token
stream whose inter-token gaps consist solely of space characters, if no
string token accepted by `starts_with_triple` immediately follows an INDENT
token then `format_code` returns the source text unchanged, byte for byte. -/
theorem claim_C2_unchanged (src : Chars) (toks : List Token)
    (htok : tokenizes spaceOnly src toks = true)
    (hnc : noDocstringCandidate none toks = true) :
    format_code toks = .ok src :=
  format_code_id htok hnc

/-- Claim C2 witness: the amended theorem applied to the concrete source
`x = 1` whose gaps are single spaces. -/
theorem claim_C2_witness :
    tokenizes spaceOnly srcSp toksSp = true
    ∧ noDocstringCandidate none toksSp = true
    ∧ format_code toksSp = .ok srcSp :=
  ⟨by rfl, by rfl, claim_C2_unchanged srcSp toksSp (by rfl) (by rfl)⟩

/-- Claim C3 counterexample: `format_code` is not idempotent.  Formatting
`srcIdem` deletes the empty docstring, which changes the tokenization of the
output: the second triple-quoted string now follows an INDENT token, so a
second pass reformats it and produces a different text. -/
theorem claim_C3_cex :
    tokenizes spaceOnly srcIdem toksIdem1 = true
    ∧ format_code toksIdem1 = .ok outIdem1
    ∧ tokenizes spaceOnly outIdem1 toksIdem2 = true
    ∧ format_code toksIdem2 = .ok outIdem2
    ∧ outIdem2 ≠ outIdem1 :=
  ⟨by rfl, by rfl, by rfl, by rfl, by decide⟩

theorem format_docstring_ok {indentation d contents : Chars}
    (h : strip_docstring d = .ok contents) :
    format_docstring indentation d =
      if contents = [] then .ok []
      else if (split_summary_and_description contents).2 = [] then
        .ok (toChars "\"\"\"" ++ contents ++ toChars "\"\"\"")
      else .ok (toChars "\"\"\""
        ++ normalize_summary (split_summary_and_description contents).1
        ++ toChars "\n\n"
        ++ joinNl ((splitNl (split_summary_and_description contents).2).map
            fun l => rstrip (indent_non_indented l indentation))
        ++ toChars "\n\n" ++ indentation ++ toChars "\"\"\"") := by
  rw [format_docstring, h]

/-- Claim C10: `normalize_summary` is idempotent: its output carries no
leading or trailing whitespace, contains no newline, and ends with a period,
so applying it a second time changes nothing. -/
theorem claim_C10_normalize_idem (s : Chars) :
    normalize_summary (normalize_summary s) = normalize_summary s :=
  normalize_summary_fix s

/-- Claim C9: when the stripped contents of the docstring are empty,
`format_docstring` returns the empty string. -/
theorem claim_C9_empty_contents (indentation d : Chars)
    (h : strip_docstring d = .ok []) :
    format_docstring indentation d = .ok [] := by
  rw [format_docstring_ok h, if_pos rfl]

/-- Claim C9 witness: the docstring consisting of delimiters around a single
space collapses to the empty string. -/
theorem claim_C9_witness :
    strip_docstring (toChars "\"\"\" \"\"\"") = .ok []
    ∧ format_docstring (toChars "    ") (toChars "\"\"\" \"\"\"") = .ok [] :=
  ⟨by rfl, claim_C9_empty_contents (toChars "    ") (toChars "\"\"\" \"\"\"") (by rfl)⟩

/-- Claim C8: when the description is empty, `format_docstring` returns the
opening delimiter, the untouched stripped contents, and the closing
delimiter, with no summary normalization; in particular the single-sentence
docstring containing `Just this.` is returned unchanged. -/
theorem claim_C8_no_description :
    (∀ indentation d contents : Chars, strip_docstring d = .ok contents →
      contents ≠ [] → (split_summary_and_description contents).2 = [] →
      format_docstring indentation d
        = .ok (toChars "\"\"\"" ++ contents ++ toChars "\"\"\""))
    ∧ format_docstring (toChars "    ") (toChars "\"\"\"Just this.\"\"\"")
        = .ok (toChars "\"\"\"Just this.\"\"\"") := by
  constructor
  · intro indentation d contents h hne hdesc
    rw [format_docstring_ok h, if_neg hne, if_pos hdesc]
  · rfl

/-- Claim C8 witness: the general branch applied to the `Just this.`
docstring. -/
theorem claim_C8_witness :
    format_docstring (toChars "  ") (toChars "\"\"\"Just this.\"\"\"")
      = .ok (toChars "\"\"\"" ++ toChars "Just this." ++ toChars "\"\"\"") :=
  claim_C8_no_description.1 (toChars "  ") (toChars "\"\"\"Just this.\"\"\"")
    (toChars "Just this.") (by rfl) (by decide) (by rfl)

theorem format_docstring_desc {indentation d contents S D : Chars}
    (h : strip_docstring d = .ok contents) (hne : contents ≠ [])
    (hsd : split_summary_and_description contents = (S, D)) (hD : D ≠ []) :
    format_docstring indentation d
      = .ok (toChars "\"\"\"" ++ normalize_summary S ++ toChars "\n\n"
        ++ joinNl ((splitNl D).map fun l =>
            rstrip (if lstrip l = l then indentation ++ l else l))
        ++ toChars "\n\n" ++ indentation ++ toChars "\"\"\"") := by
  rw [format_docstring_ok h, if_neg hne, hsd, if_neg hD]
  rfl

/-- Claim C7: when the description is non-empty, `format_docstring` returns
the opening delimiter, the normalized summary, one blank line, the
description with every line that has no leading whitespace prefixed by the
indentation context (lines already carrying leading whitespace left as-is)
and trailing whitespace stripped from every line, one blank line, the
indentation context, and the closing delimiter. -/
theorem claim_C7_description_layout (indentation d contents S D : Chars)
    (h : strip_docstring d = .ok contents) (hne : contents ≠ [])
    (hsd : split_summary_and_description contents = (S, D)) (hD : D ≠ []) :
    format_docstring indentation d
      = .ok (toChars "\"\"\"" ++ normalize_summary S ++ toChars "\n\n"
        ++ joinNl ((splitNl D).map fun l =>
            rstrip (if lstrip l = l then indentation ++ l else l))
        ++ toChars "\n\n" ++ indentation ++ toChars "\"\"\"") :=
  format_docstring_desc h hne hsd hD

/-- Claim C7 witness: the layout theorem applied to the docstring of the
specification's first example. -/
theorem claim_C7_witness :
    format_docstring (toChars "    ")
        (toChars "\"\"\"Return x.\n\nMore info here.\n\"\"\"")
      = .ok (toChars "\"\"\"Return x.\n\n    More info here.\n\n    \"\"\"") := by
  have h := claim_C7_description_layout (toChars "    ")
    (toChars "\"\"\"Return x.\n\nMore info here.\n\"\"\"")
    (toChars "Return x.\n\nMore info here.")
    (toChars "Return x.") (toChars "More info here.")
    (by rfl) (by decide) (by rfl) (by decide)
  exact h.trans rfl

/-- Claim C4 counterexample: a summary already ending in two periods is kept
as-is by `normalize_summary` (the code only appends a period when one is not
already last), so the formatted summary line ends with TWO periods, refuting
"ends with exactly one period". -/
theorem claim_C4_cex :
    format_docstring (toChars "    ") (toChars "\"\"\"Hi..\n\nBye.\"\"\"")
      = .ok (toChars "\"\"\"Hi..\n\n    Bye.\n\n    \"\"\"")
    ∧ (splitNl (toChars "\"\"\"Hi..\n\n    Bye.\n\n    \"\"\"")).headD []
        = toChars "\"\"\"Hi.."
    ∧ (toChars "..").isSuffixOf (toChars "\"\"\"Hi..") = true :=
  ⟨by rfl, by rfl, by rfl⟩

/-- Claim C4 (amended): for every docstring with a non-empty description,
the summary line of the output (the text before the first line break) is the
opening delimiter followed by the normalized summary; the normalized summary
ends with a period (though not necessarily exactly one) and contains no
embedded line break. -/
theorem claim_C4_summary_line (indentation d contents S D : Chars)
    (h : strip_docstring d = .ok contents) (hne : contents ≠ [])
    (hsd : split_summary_and_description contents = (S, D)) (hD : D ≠ []) :
    ∃ out u, format_docstring indentation d = .ok out
      ∧ (splitNl out).headD [] = toChars "\"\"\"" ++ normalize_summary S
      ∧ normalize_summary S = u ++ ['.']
      ∧ '\n' ∉ normalize_summary S := by
  have hfmt := @format_docstring_desc indentation d contents S D h hne hsd hD
  have hnoNl : '\n' ∉ toChars "\"\"\"" ++ normalize_summary S := by
    intro hm
    rcases List.mem_append.mp hm with h1 | h2
    · rw [q3_def] at h1
      exact absurd h1 (by decide)
    · exact ns_no_nl S h2
  have hshape : toChars "\"\"\"" ++ normalize_summary S ++ toChars "\n\n"
      ++ joinNl ((splitNl D).map fun l =>
          rstrip (if lstrip l = l then indentation ++ l else l))
      ++ toChars "\n\n" ++ indentation ++ toChars "\"\"\""
    = (toChars "\"\"\"" ++ normalize_summary S)
      ++ '\n' :: ('\n' :: (joinNl ((splitNl D).map fun l =>
          rstrip (if lstrip l = l then indentation ++ l else l))
        ++ toChars "\n\n" ++ indentation ++ toChars "\"\"\"")) := by
    rw [show toChars "\n\n" = '\n' :: '\n' :: [] from rfl]
    simp [List.append_assoc]
  rcases ns_ends_dot S with ⟨u, hu⟩
  refine ⟨_, u, hfmt, ?_, hu, ns_no_nl S⟩
  rw [hshape, splitNl_append_noNl hnoNl]
  rfl

/-- Claim C4 witness: the summary-line theorem applied to a concrete
docstring with a blank-line-separated description. -/
theorem claim_C4_witness :
    ∃ out u, format_docstring (toChars "    ") (toChars "\"\"\"Hi there\n\nBye.\"\"\"")
        = .ok out
      ∧ (splitNl out).headD []
          = toChars "\"\"\"" ++ normalize_summary (toChars "Hi there")
      ∧ normalize_summary (toChars "Hi there") = u ++ ['.']
      ∧ '\n' ∉ normalize_summary (toChars "Hi there") :=
  claim_C4_summary_line (toChars "    ") (toChars "\"\"\"Hi there\n\nBye.\"\"\"")
    (toChars "Hi there\n\nBye.") (toChars "Hi there") (toChars "Bye.")
    (by rfl) (by decide) (by rfl) (by decide)

theorem reSplit_eq_dotWsIdx (c : Chars) :
    reSplitDotWs c = (dotWsIdx c).map fun i => (c.take i, c.drop (i + 2)) := by
  induction c with
  | nil => rfl
  | cons x t ih =>
    cases t with
    | nil => rfl
    | cons y t2 =>
      rw [reSplitDotWs]
      by_cases h : (x = '.' && pyIsSpace y) = true
      · rw [if_pos h]
        rw [show dotWsIdx (x :: y :: t2)
            = ((x :: y :: t2).zip (y :: t2)).findIdx?
                (fun p => p.1 = '.' && pyIsSpace p.2) 0 from rfl]
        rw [List.zip_cons_cons, List.findIdx?_cons, if_pos h]
        rfl
      · rw [if_neg h, ih]
        rw [show dotWsIdx (x :: y :: t2)
            = ((x :: y :: t2).zip (y :: t2)).findIdx?
                (fun p => p.1 = '.' && pyIsSpace p.2) 0 from rfl]
        rw [List.zip_cons_cons, List.findIdx?_cons, if_neg h,
          show (0 + 1 : Nat) = 0 + 1 from rfl, List.findIdx?_succ]
        rw [show (y :: t2).zip t2
            = (y :: t2).zip ((y :: t2).drop 1) from rfl]
        rw [show ((y :: t2).zip ((y :: t2).drop 1)).findIdx?
              (fun p => p.1 = '.' && pyIsSpace p.2) 0
            = dotWsIdx (y :: t2) from rfl]
        rcases dotWsIdx (y :: t2) with _ | i
        · rfl
        · rfl

/-- Claim C5 counterexample: the split pattern is a period followed by ANY
whitespace character, not only a space.  On contents with a period followed
by a tab (and no period-space pair, no blank second line), the function
splits at the period-tab pair instead of returning the whole contents as the
summary with an empty description. -/
theorem claim_C5_cex :
    split_summary_and_description (toChars "One.\ttwo")
      = (toChars "One.", toChars "two")
    ∧ split_summary_and_description (toChars "One.\ttwo")
        ≠ (toChars "One.\ttwo", []) :=
  ⟨by rfl, by decide⟩

/-- Claim C5 (amended): `split_summary_and_description` returns the first
line as summary and the text after the blank line as description when the
second line is blank after stripping; otherwise it splits at the FIRST
occurrence of a period followed by one whitespace character (space, tab,
newline, carriage return, vertical tab or form feed): the summary is the
text before the period, stripped, with a period appended, and the
description is the text after the whitespace character, stripped; if no
period-whitespace pair exists, the summary is the whole contents stripped
and the description is empty. -/
theorem claim_C5_split_rule (contents : Chars) :
    split_summary_and_description contents =
      if 1 < (splitNl contents).length ∧ strip ((splitNl contents).getD 1 []) = [] then
        ((splitNl contents).headD [], joinNl ((splitNl contents).drop 2))
      else
        match dotWsIdx contents with
        | some i => (strip (contents.take i) ++ toChars ".",
            strip (contents.drop (i + 2)))
        | none => (strip contents, []) := by
  rw [split_summary_and_description]
  by_cases h : 1 < (splitNl contents).length
      ∧ strip ((splitNl contents).getD 1 []) = []
  · rw [if_pos h, if_pos h]
  · rw [if_neg h, if_neg h, reSplit_eq_dotWsIdx]
    rcases hd : dotWsIdx contents with _ | i
    · rfl
    · rfl

/-- Claim C6 counterexample: a docstring opening with three double quotes and
closing with three single quotes has mismatched delimiters, yet NO assertion
failure is raised: the assertion is only checked when the docstring opens
with three single quotes.  The call returns normally. -/
theorem claim_C6_cex :
    strip_docstring (toChars "\"\"\"abc'''") = .ok (toChars "abc'''") := by rfl

/-- Claim C6 (amended): the assertion fires exactly when the left-stripped
docstring opens with three single quotes but the right-stripped docstring
does not end with three single quotes; a docstring that does not open with
three single quotes never raises the assertion, regardless of how it closes;
and for matching delimiters of either kind, `strip_docstring` returns the
text strictly between the first opening and last closing delimiter, with
surrounding whitespace stripped. -/
theorem claim_C6_delimiters :
    (∀ d : Chars, (toChars "'''").isPrefixOf (lstrip d) = true →
      (toChars "'''").isSuffixOf (rstrip d) = false →
      strip_docstring d = .error .assertionError)
    ∧ (∀ d : Chars, (toChars "'''").isPrefixOf (lstrip d) = false →
      strip_docstring d ≠ .error .assertionError)
    ∧ (∀ x : Chars,
      strip_docstring (toChars "\"\"\"" ++ x ++ toChars "\"\"\"") = .ok (strip x))
    ∧ (∀ x : Chars,
      strip_docstring (toChars "'''" ++ x ++ toChars "'''") = .ok (strip x)) := by
  refine ⟨?_, ?_, strip_docstring_q3_wrap, strip_docstring_tq_wrap⟩
  · intro d h1 h2
    rw [strip_docstring, if_pos h1, if_neg (by simp [h2])]
  · intro d h1
    rw [strip_docstring, if_neg (by simp [h1])]
    exact stripCore_ne_assert _ _

/-- Claim C6 witness: the amended theorem applied to a docstring opening
with three single quotes and closing with three double quotes (assertion
fires), and to a well-delimited docstring (contents returned stripped). -/
theorem claim_C6_witness :
    strip_docstring (toChars "'''abc\"\"\"") = .error .assertionError
    ∧ strip_docstring (toChars "\"\"\"" ++ toChars " Hi. " ++ toChars "\"\"\"")
        = .ok (strip (toChars " Hi. ")) :=
  ⟨claim_C6_delimiters.1 (toChars "'''abc\"\"\"") (by rfl) (by rfl),
   claim_C6_delimiters.2.2.1 (toChars " Hi. ")⟩

theorem getLastD_irrel {α : Type} {l : List α} (h : l ≠ []) (a b : α) :
    l.getLastD a = l.getLastD b := by
  induction l generalizing a b with
  | nil => exact absurd rfl h
  | cons c t ih =>
    rw [List.getLastD_cons, List.getLastD_cons]

theorem getLastD_drop {α : Type} {n : Nat} {L : List α} (h : L.drop n ≠ []) (d : α) :
    (L.drop n).getLastD d = L.getLastD d := by
  induction n generalizing L with
  | zero => rfl
  | succ m ih =>
    cases L with
    | nil => exact absurd rfl h
    | cons c t =>
      rw [List.drop_succ_cons] at h ⊢
      rw [ih h, List.getLastD_cons]
      have ht : t ≠ [] := by
        intro he
        rw [he, List.drop_nil] at h
        exact absurd rfl h
      exact getLastD_irrel ht d c

theorem getLastD_map {α β : Type} (f : α → β) :
    ∀ (L : List α) (d : α), (L.map f).getLastD (f d) = f (L.getLastD d) := by
  intro L
  induction L with
  | nil => intro d; rfl
  | cons c t ih =>
    intro d
    rw [List.map_cons, List.getLastD_cons, List.getLastD_cons, ih c]

theorem splitNl_last_ends {x : Char} (hx : ¬ x = '\n') :
    ∀ u : Chars, ∃ w, (splitNl (u ++ [x])).getLastD [] = w ++ [x] := by
  intro u
  induction u with
  | nil =>
    refine ⟨[], ?_⟩
    rw [List.nil_append, splitNl]
    simp only [hx, if_false]
    rfl
  | cons c t ih =>
    rcases ih with ⟨w, hw⟩
    by_cases hc : c = '\n'
    · subst hc
      rw [List.cons_append, splitNl_nl, List.getLastD_cons]
      rw [getLastD_irrel (splitNl_ne_nil _) [] ([] : Chars)] at hw ⊢
      exact ⟨w, hw⟩
    · rw [List.cons_append, splitNl]
      simp only [hc, if_false]
      rcases hs : splitNl (t ++ [x]) with _ | ⟨l, ls⟩
      · exact absurd hs (splitNl_ne_nil _)
      · rw [hs] at hw
        cases ls with
        | nil =>
          rw [List.getLastD_cons] at hw ⊢
          simp only [List.getLastD] at hw ⊢
          exact ⟨c :: w, by rw [hw, List.cons_append]⟩
        | cons b bs =>
          rw [List.getLastD_cons] at hw ⊢
          rw [getLastD_irrel (by simp : b :: bs ≠ []) (c :: l) l]
          exact ⟨w, hw⟩

theorem joinNl_last {x : Char} :
    ∀ (L : List Chars) (w : Chars), L.getLastD [] = w ++ [x] →
      ∃ v, joinNl L = v ++ [x] := by
  intro L
  induction L with
  | nil =>
    intro w hw
    simp only [List.getLastD] at hw
    exact absurd hw.symm (List.append_ne_nil_of_right_ne_nil w (by simp))
  | cons l ls ih =>
    intro w hw
    cases ls with
    | nil =>
      rw [List.getLastD_cons] at hw
      simp only [List.getLastD] at hw
      exact ⟨w, by rw [joinNl, hw]⟩
    | cons b bs =>
      rw [List.getLastD_cons, getLastD_irrel (by simp : b :: bs ≠ []) l []] at hw
      rcases ih w hw with ⟨v, hv⟩
      refine ⟨l ++ '\n' :: v, ?_⟩
      rw [joinNl_cons_of_ne (by simp), hv]
      simp

theorem desc_ends {c S D : Chars} (hsc : strip c = c)
    (hsd : split_summary_and_description c = (S, D)) (hD : D ≠ []) :
    ∃ w x, D = w ++ [x] ∧ pyIsSpace x = false := by
  have hCend : c ≠ [] → ∃ u y, c = u ++ [y] ∧ pyIsSpace y = false := by
    intro hne
    have hne2 : strip c ≠ [] := by rw [hsc]; exact hne
    rcases strip_out hne2 with ⟨u, y, huy, hy⟩
    rw [hsc] at huy
    exact ⟨u, y, huy, hy⟩
  simp only [split_summary_and_description] at hsd
  by_cases h : 1 < (splitNl c).length ∧ strip ((splitNl c).getD 1 []) = []
  · rw [if_pos h] at hsd
    injection hsd with h1 h2
    have hc0 : c ≠ [] := by
      intro he
      rw [he] at h
      simp [splitNl] at h
    rcases hCend hc0 with ⟨u, y, huy, hy⟩
    have hynl : ¬ y = '\n' := by
      intro he
      rw [he] at hy
      simp [pyIsSpace] at hy
    rcases splitNl_last_ends hynl u with ⟨w1, hw1⟩
    rw [← huy] at hw1
    have hdrop : (splitNl c).drop 2 ≠ [] := by
      intro he
      rw [he] at h2
      exact hD h2.symm
    have hlast2 : ((splitNl c).drop 2).getLastD [] = w1 ++ [y] := by
      rw [getLastD_drop hdrop, hw1]
    rcases joinNl_last _ w1 hlast2 with ⟨v, hv⟩
    exact ⟨v, y, by rw [← h2, hv], hy⟩
  · rw [if_neg h] at hsd
    rcases hre : reSplitDotWs c with _ | ⟨a, b⟩
    · rw [hre] at hsd
      injection hsd with h1 h2
      exact absurd h2.symm hD
    · rw [hre] at hsd
      injection hsd with h1 h2
      have hne2 : strip b ≠ [] := by rw [h2]; exact hD
      rcases strip_out hne2 with ⟨w, x, hwx, hx⟩
      exact ⟨w, x, by rw [← h2, hwx], hx⟩

theorem indent_nil (m : Chars) :
    (if lstrip m = m then ([] : Chars) ++ m else m) = m := by
  by_cases h : lstrip m = m
  · rw [if_pos h, List.nil_append]
  · rw [if_neg h]

theorem reindent_line_idem {ind : Chars} (hws : ∀ ch ∈ ind, pyIsSpace ch = true)
    (l : Chars) :
    rstrip (if lstrip (rstrip (if lstrip l = l then ind ++ l else l))
        = rstrip (if lstrip l = l then ind ++ l else l) then
      ind ++ rstrip (if lstrip l = l then ind ++ l else l)
    else rstrip (if lstrip l = l then ind ++ l else l))
      = rstrip (if lstrip l = l then ind ++ l else l) := by
  rcases hind : ind with _ | ⟨i0, irest⟩
  · rw [indent_nil, indent_nil, rstrip_idem]
  · have hi0 : pyIsSpace i0 = true := hws i0 (by rw [hind]; simp)
    rw [← hind]
    have hindws : ∀ ch ∈ ind, pyIsSpace ch = true := hws
    have hstripind : rstrip ind = [] := rstrip_eq_nil_of_ws hindws
    by_cases hl : lstrip l = l
    · rw [if_pos hl]
      rcases l with _ | ⟨c, lt⟩
      · rw [List.append_nil, hstripind]
        rw [show lstrip ([] : Chars) = [] from rfl, if_pos rfl, List.append_nil, hstripind]
      · have hc : pyIsSpace c = false := lstrip_fix_head hl
        have hrl : rstrip (c :: lt) ≠ [] :=
          rstrip_ne_nil_of_mem hc (by simp)
        have hm : rstrip (ind ++ c :: lt) = ind ++ rstrip (c :: lt) :=
          rstrip_append_right hrl ind
        rw [hm]
        have hne : lstrip (ind ++ rstrip (c :: lt)) ≠ ind ++ rstrip (c :: lt) := by
          rw [hind, List.cons_append]
          exact lstrip_cons_ws_ne hi0
        rw [if_neg hne, rstrip_append_right (by rw [rstrip_idem]; exact hrl) ind,
          rstrip_idem]
    · rw [if_neg hl]
      have hl0 : l ≠ [] := by
        intro he
        rw [he] at hl
        exact hl rfl
      rcases l with _ | ⟨c, lt⟩
      · exact absurd rfl hl0
      have hc : pyIsSpace c = true := by
        by_contra hcf
        rw [Bool.not_eq_true] at hcf
        exact hl (lstrip_cons_of_nonws hcf lt)
      rcases rstrip_cons_shape c lt with he | ⟨r, he⟩
      · rw [he]
        rw [show lstrip ([] : Chars) = [] from rfl, if_pos rfl, List.append_nil, hstripind]
      · rw [he]
        have hne : lstrip (c :: r) ≠ c :: r := lstrip_cons_ws_ne hc
        rw [if_neg hne, ← he, rstrip_idem, he]

theorem nl2_def : toChars "\n\n" = ['\n', '\n'] := rfl

/-- The per-line transformation applied to description lines in
`format_docstring`: indent lines without leading whitespace, then strip
trailing whitespace. -/
def reindentLine (ind l : Chars) : Chars :=
  rstrip (indent_non_indented l ind)

theorem reindentLine_eq (ind : Chars) :
    (fun l => rstrip (if lstrip l = l then ind ++ l else l)) = reindentLine ind := rfl

theorem reindent_noNl {ind l0 : Chars} (hiNl : '\n' ∉ ind) (h0 : '\n' ∉ l0) :
    '\n' ∉ reindentLine ind l0 := by
  intro hm
  have hsub := (rstrip_pre (indent_non_indented l0 ind)).subset hm
  rw [indent_non_indented] at hsub
  by_cases h : lstrip l0 = l0
  · rw [if_pos h] at hsub
    rcases List.mem_append.mp hsub with h1 | h2
    · exact hiNl h1
    · exact h0 h2
  · rw [if_neg h] at hsub
    exact h0 hsub

theorem reindentLine_idem {ind : Chars} (hws : ∀ ch ∈ ind, pyIsSpace ch = true)
    (l : Chars) :
    reindentLine ind (reindentLine ind l) = reindentLine ind l :=
  reindent_line_idem hws l

theorem reindentLine_last {ind lastD w1 : Chars} {x : Char}
    (hx : pyIsSpace x = false) (hlast : lastD = w1 ++ [x]) :
    ∃ pre, reindentLine ind lastD = pre ++ [x] := by
  rw [reindentLine, indent_non_indented]
  by_cases h : lstrip lastD = lastD
  · rw [if_pos h, hlast, ← List.append_assoc, rstrip_append_nonws hx]
    exact ⟨ind ++ w1, rfl⟩
  · rw [if_neg h, hlast, rstrip_append_nonws hx]
    exact ⟨w1, rfl⟩

/-- Claim C3 (amended): `format_docstring` is idempotent at the docstring
level: for every docstring whose stripped contents are non-empty, with an
indentation context consisting of spaces and tabs, applying
`format_docstring` to its own output reproduces that output unchanged.
(Whole-source `format_code` is NOT idempotent; see the counterexample.) -/
theorem claim_C3_docstring_idem (ind d c out : Chars)
    (hind : ∀ ch ∈ ind, ch = ' ' ∨ ch = '\t')
    (h : strip_docstring d = .ok c) (hne : c ≠ [])
    (hout : format_docstring ind d = .ok out) :
    format_docstring ind out = .ok out := by
  have hindws : ∀ ch ∈ ind, pyIsSpace ch = true := by
    intro ch hm
    rcases hind ch hm with he | he <;> rw [he] <;> rfl
  have hindnoNl : '\n' ∉ ind := by
    intro hm
    rcases hind '\n' hm with he | he <;> exact absurd he (by decide)
  have hsc : strip c = c := strip_docstring_stripped h
  rcases hsd : split_summary_and_description c with ⟨S, D⟩
  by_cases hD : D = []
  · subst hD
    rw [format_docstring_ok h, if_neg hne, hsd, if_pos rfl] at hout
    injection hout with hout2
    have hsdout : strip_docstring out = .ok c := by
      rw [← hout2, strip_docstring_q3_wrap, hsc]
    rw [format_docstring_ok hsdout, if_neg hne, hsd, if_pos rfl, hout2]
  · have hfmt := @format_docstring_desc ind d c S D h hne hsd hD
    rw [reindentLine_eq] at hfmt
    rw [hfmt] at hout
    injection hout with hout2
    rcases ns_ends_dot S with ⟨u, hu⟩
    rcases ns_head_nonws S with ⟨hc0, t0, hct, hcw⟩
    rcases desc_ends hsc hsd hD with ⟨w, x, hwx, hxws⟩
    have hxnl : ¬ x = '\n' := by
      intro he
      rw [he] at hxws
      simp [pyIsSpace] at hxws
    rcases splitNl_last_ends hxnl w with ⟨w1, hw1⟩
    rw [← hwx] at hw1
    have hmapnoNl : ∀ l2 ∈ (splitNl D).map (reindentLine ind), '\n' ∉ l2 := by
      intro l2 hm2
      rcases List.mem_map.mp hm2 with ⟨l0, hl0, he⟩
      rw [← he]
      exact reindent_noNl hindnoNl (mem_splitNl_noNl hl0)
    have hmapne : (splitNl D).map (reindentLine ind) ≠ [] := by
      intro he
      have hlen := congrArg List.length he
      rw [List.length_map] at hlen
      exact splitNl_ne_nil D (List.length_eq_zero.mp hlen)
    have hlastmap : ((splitNl D).map (reindentLine ind)).getLastD []
        = reindentLine ind ((splitNl D).getLastD []) := by
      rw [getLastD_irrel hmapne ([] : Chars) (reindentLine ind ([] : Chars))]
      exact getLastD_map (reindentLine ind) (splitNl D) []
    rcases @reindentLine_last ind ((splitNl D).getLastD []) w1 x hxws hw1
      with ⟨pre, hpre⟩
    rcases joinNl_last ((splitNl D).map (reindentLine ind)) pre
      (by rw [hlastmap, hpre]) with ⟨v, hv⟩
    have hshape1 : toChars "\"\"\"" ++ normalize_summary S ++ toChars "\n\n"
        ++ joinNl ((splitNl D).map (reindentLine ind))
        ++ toChars "\n\n" ++ ind ++ toChars "\"\"\""
      = toChars "\"\"\"" ++ (normalize_summary S ++ toChars "\n\n"
        ++ joinNl ((splitNl D).map (reindentLine ind))
        ++ toChars "\n\n" ++ ind) ++ toChars "\"\"\"" := by
      simp [List.append_assoc]
    have hstripY : strip (normalize_summary S ++ toChars "\n\n"
        ++ joinNl ((splitNl D).map (reindentLine ind)) ++ toChars "\n\n" ++ ind)
      = normalize_summary S ++ toChars "\n\n"
        ++ joinNl ((splitNl D).map (reindentLine ind)) := by
      have hY : normalize_summary S ++ toChars "\n\n"
          ++ joinNl ((splitNl D).map (reindentLine ind)) ++ toChars "\n\n" ++ ind
        = (normalize_summary S ++ toChars "\n\n"
          ++ joinNl ((splitNl D).map (reindentLine ind)))
          ++ (toChars "\n\n" ++ ind) := by
        simp [List.append_assoc]
      rw [hY]
      apply strip_append_tail_ws
      · rw [hct, List.cons_append, List.cons_append]
        exact lstrip_cons_of_nonws hcw _
      · have hX : normalize_summary S ++ toChars "\n\n"
            ++ joinNl ((splitNl D).map (reindentLine ind))
          = (normalize_summary S ++ toChars "\n\n" ++ v) ++ [x] := by
          rw [hv]
          simp [List.append_assoc]
        rw [hX]
        exact rstrip_append_nonws hxws _
      · rw [hct]
        simp
      · intro ch hm
        rcases List.mem_append.mp hm with h1 | h2
        · rw [nl2_def] at h1
          rcases List.mem_cons.mp h1 with he | h3
          · rw [he]; rfl
          · rcases List.mem_cons.mp h3 with he | h4
            · rw [he]; rfl
            · exact absurd h4 (by simp)
        · exact hindws ch h2
    have hsdout : strip_docstring out = .ok (normalize_summary S ++ toChars "\n\n"
        ++ joinNl ((splitNl D).map (reindentLine ind))) := by
      rw [← hout2, hshape1, strip_docstring_q3_wrap, hstripY]
    have hsplit2 : splitNl (normalize_summary S ++ toChars "\n\n"
        ++ joinNl ((splitNl D).map (reindentLine ind)))
      = normalize_summary S :: [] :: splitNl (joinNl ((splitNl D).map (reindentLine ind))) := by
      have hsh : normalize_summary S ++ toChars "\n\n"
          ++ joinNl ((splitNl D).map (reindentLine ind))
        = normalize_summary S
          ++ '\n' :: ('\n' :: joinNl ((splitNl D).map (reindentLine ind))) := by
        rw [nl2_def]
        simp [List.append_assoc]
      rw [hsh, splitNl_append_noNl (ns_no_nl S), splitNl_nl]
    have hround : splitNl (joinNl ((splitNl D).map (reindentLine ind)))
        = (splitNl D).map (reindentLine ind) :=
      splitNl_joinNl hmapne hmapnoNl
    have hsd2 : split_summary_and_description (normalize_summary S ++ toChars "\n\n"
        ++ joinNl ((splitNl D).map (reindentLine ind)))
      = (normalize_summary S, joinNl ((splitNl D).map (reindentLine ind))) := by
      simp only [split_summary_and_description]
      rw [hsplit2]
      rw [if_pos ⟨by simp, by rfl⟩]
      rw [show (normalize_summary S :: ([] : Chars)
          :: splitNl (joinNl ((splitNl D).map (reindentLine ind)))).drop 2
        = splitNl (joinNl ((splitNl D).map (reindentLine ind))) from rfl]
      rw [joinNl_splitNl]
      rfl
    have hc2ne : normalize_summary S ++ toChars "\n\n"
        ++ joinNl ((splitNl D).map (reindentLine ind)) ≠ [] := by
      rw [hct]
      simp
    have hD2ne : joinNl ((splitNl D).map (reindentLine ind)) ≠ [] := by
      rw [hv]
      simp
    have hfinal := @format_docstring_desc ind out
      (normalize_summary S ++ toChars "\n\n"
        ++ joinNl ((splitNl D).map (reindentLine ind)))
      (normalize_summary S) (joinNl ((splitNl D).map (reindentLine ind)))
      hsdout hc2ne hsd2 hD2ne
    rw [reindentLine_eq] at hfinal
    have hmm : (splitNl D).map (reindentLine ind ∘ reindentLine ind)
        = (splitNl D).map (reindentLine ind) :=
      List.map_congr_left (fun a _ => reindentLine_idem hindws a)
    rw [hfinal, normalize_summary_fix, hround, List.map_map, hmm, hout2]

/-- Claim C3 witness: the docstring-level idempotence theorem applied to a
concrete docstring whose first pass produces a reformatted text; the second
pass reproduces it unchanged. -/
theorem claim_C3_witness :
    format_docstring (toChars "    ") (toChars "\"\"\"Sum. Extra\"\"\"")
      = .ok (toChars "\"\"\"Sum.\n\n    Extra\n\n    \"\"\"")
    ∧ format_docstring (toChars "    ") (toChars "\"\"\"Sum.\n\n    Extra\n\n    \"\"\"")
      = .ok (toChars "\"\"\"Sum.\n\n    Extra\n\n    \"\"\"") :=
  ⟨by rfl, claim_C3_docstring_idem (toChars "    ") (toChars "\"\"\"Sum. Extra\"\"\"")
      (toChars "Sum. Extra") (toChars "\"\"\"Sum.\n\n    Extra\n\n    \"\"\"")
      (by decide) (by rfl) (by decide) (by rfl)⟩
